import Mathlib

/-!
Verification of the fs-router route-file parser and router factory.

The definitions below are a shallow embedding of the TypeScript source:
* the route-file parser (`parseRoutes`, `parseRouteFile`, `loadRouteHandlers`),
* the router factory (`createRouter`) driving an abstract adapter.

Strings are manipulated through their character lists, mirroring the JS string
operations used by the source.  The filesystem is modelled as an explicit tree
(`FsTree`); directory entries are visited in list order, matching the order
`readdirSync` reports them in.  JS objects holding handlers are modelled as
association lists whose values are `Option Handler`: a key that is present with
value `none` models a property that exists but holds `undefined`, exactly the
state produced by an object literal field bound to a missing module export.
-/

namespace FsRouter

/-- JS `s.endsWith(t)`. -/
def strEndsWith (s t : String) : Bool := t.data.isSuffixOf s.data

/-- JS `s.startsWith(t)`. -/
def strStartsWith (s t : String) : Bool := t.data.isPrefixOf s.data

/-- Drop the first `n` characters, JS `s.slice(n)`. -/
def strDrop (s : String) (n : Nat) : String := ⟨s.data.drop n⟩

/-- Drop the last `n` characters, JS `s.slice(0, -n)`. -/
def strDropRight (s : String) (n : Nat) : String := ⟨s.data.take (s.data.length - n)⟩

/-- Character count of a string. -/
def strLen (s : String) : Nat := s.data.length

/-- Splitting accumulator: JS `String.prototype.split` with a one-character
separator.  `splitAux sep cs cur` processes the remaining characters `cs` with
the current (reversed-in-order, already collected) segment `cur`. -/
def splitAux (sep : Char) : List Char → List Char → List String
  | [], cur => [⟨cur⟩]
  | c :: cs, cur => if c = sep then ⟨cur⟩ :: splitAux sep cs [] else splitAux sep cs (cur ++ [c])

/-- JS `s.split(sep)` for a single-character separator. -/
def splitChar (sep : Char) (s : String) : List String := splitAux sep s.data []

/-- JS `array.join('/')`. -/
def joinSlash : List String → String
  | [] => ""
  | [s] => s
  | s :: rest => s ++ "/" ++ joinSlash rest

/-- Collapse every run of consecutive `'/'` characters to a single `'/'`,
the character-level content of the JS `path.replace(/\/+/g, '/')`. -/
def collapseAux : List Char → List Char
  | [] => []
  | [c] => [c]
  | a :: b :: rest =>
    if a = '/' && b = '/' then collapseAux (b :: rest) else a :: collapseAux (b :: rest)

/-- JS `path.replace(/\/+/g, '/')`. -/
def collapseSlashes (s : String) : String := ⟨collapseAux s.data⟩

/-- Whether the character list contains two consecutive `'/'` characters;
equivalent to the string containing the two-character substring `"//"`. -/
def hasAdjSlashes : List Char → Bool
  | [] => false
  | [_] => false
  | a :: b :: rest => (a = '/' && b = '/') || hasAdjSlashes (b :: rest)

/-- The string contains the substring `"//"`. -/
def containsDoubleSlash (s : String) : Bool := hasAdjSlashes s.data

/-- Strip one of two alternative suffixes, modelling a single anchored
regex replace `s.replace(/suf1|suf2$/, '')` where the alternatives cannot
overlap. -/
def stripSuffix2 (s a b : String) : String :=
  if strEndsWith s a then strDropRight s (strLen a)
  else if strEndsWith s b then strDropRight s (strLen b)
  else s

/-- The suffix-stripping chain of `parseRouteFile`:
`relativePath.replace(/\.middleware\.(ts|js)$/,'').replace(/\.route\.(ts|js)$/,'')
.replace(/\/route\.(ts|js)$/,'').replace(/^route\.(ts|js)$/,'')`. -/
def stripRouteSuffixes (s : String) : String :=
  let s1 := stripSuffix2 s ".middleware.ts" ".middleware.js"
  let s2 := stripSuffix2 s1 ".route.ts" ".route.js"
  let s3 := stripSuffix2 s2 "/route.ts" "/route.js"
  if s3 = "route.ts" ∨ s3 = "route.js" then "" else s3

/-- Bracket-aware dot tokenizer of one directory-level part: the inner
character loop of `parseRouteFile`.  A `'.'` splits only while not inside a
`[...]` token; `'['` opens and `']'` closes bracket mode; a segment is pushed
only when non-empty. -/
def tokenizeAux : List Char → List Char → Bool → List (List Char)
  | [], cur, _ => if cur = [] then [] else [cur]
  | c :: cs, cur, inB =>
    if c = '[' then tokenizeAux cs (cur ++ ['[']) true
    else if c = ']' then tokenizeAux cs (cur ++ [']']) false
    else if c = '.' && !inB then
      (if cur = [] then tokenizeAux cs [] inB else cur :: tokenizeAux cs [] inB)
    else tokenizeAux cs (cur ++ [c]) inB

/-- Dot-segments of one directory-level part (bracket aware). -/
def tokenizePart (part : String) : List String :=
  (tokenizeAux part.data [] false).map (fun l => ⟨l⟩)

/-- A segment of catch-all shape `[...name]`:
`segment.startsWith('[...') && segment.endsWith(']')`. -/
def isCatchAllSeg (seg : String) : Bool := strStartsWith seg "[..." && strEndsWith seg "]"

/-- Parameter name of a catch-all segment, JS `segment.slice(4, -1)`. -/
def catchAllName (seg : String) : String := strDropRight (strDrop seg 4) 1

/-- A segment of plain dynamic shape `[name]`:
`segment.startsWith('[') && segment.endsWith(']')`. -/
def isDynamicSeg (seg : String) : Bool := strStartsWith seg "[" && strEndsWith seg "]"

/-- Parameter name of a dynamic segment, JS `segment.slice(1, -1)`. -/
def dynamicName (seg : String) : String := strDropRight (strDrop seg 1) 1

/-- The inner `for (const segment of segments)` loop of `parseRouteFile`.
Returns `(paramNames, convertedParts, hasCatchAll)` contributed by the
segments of one part; a catch-all segment records its name and stops the
loop (`break`). -/
def processSegments : List String → List String × List String × Bool
  | [] => ([], [], false)
  | seg :: rest =>
    if isCatchAllSeg seg then ([catchAllName seg], [], true)
    else if isDynamicSeg seg then
      (dynamicName seg :: (processSegments rest).1,
       (":" ++ dynamicName seg) :: (processSegments rest).2.1,
       (processSegments rest).2.2)
    else if seg = "" then processSegments rest
    else
      ((processSegments rest).1, seg :: (processSegments rest).2.1, (processSegments rest).2.2)

/-- The outer `for (const part of parts)` loop of `parseRouteFile`: once a
part's segments hit a catch-all, processing of the remaining parts stops
(`if (hasCatchAll) break`). -/
def processParts : List String → List String × List String × Bool
  | [] => ([], [], false)
  | part :: rest =>
    if (processSegments (tokenizePart part)).2.2 then processSegments (tokenizePart part)
    else
      ((processSegments (tokenizePart part)).1 ++ (processParts rest).1,
       (processSegments (tokenizePart part)).2.1 ++ (processParts rest).2.1,
       (processParts rest).2.2)

/-- An opaque route handler callable.  Real handlers are JS functions and are
always truthy, so presence (`Option.isSome`) models every truthiness test the
source performs on a handler value. -/
structure Handler where
  id : Nat
deriving DecidableEq, Repr

/-- A JS object holding handler properties: an association list of present
keys; a value `none` models a property that exists with value `undefined`. -/
def Handlers := List (String × Option Handler)
deriving DecidableEq, Repr

/-- JS property access `obj[k]`: `undefined` both for a missing key and for a
key stored with value `undefined`. -/
def jsGet : Handlers → String → Option Handler
  | [], _ => none
  | (k', v) :: rest, k => if k = k' then v else jsGet rest k

/-- JS `k in obj`: the key itself is present, whatever its value. -/
def hasKey : Handlers → String → Bool
  | [], _ => false
  | (k', _) :: rest, k => k = k' || hasKey rest k

/-- The `ParsedRoute` record produced by the parser (src types). -/
structure ParsedRoute where
  path : String
  pattern : String
  paramNames : List String
  filePath : String
  handlers : Handlers
  isMiddleware : Bool
  specificMethod : Option String
deriving DecidableEq, Repr

/-- Node `path.relative(base, p)` in the only configuration the parser uses:
`p` was produced by `path.join(base, rel)`, so the relative path is `p` with
the `base ++ "/"` prefix removed. -/
def pathRelative (base p : String) : String :=
  if (base ++ "/").data.isPrefixOf p.data then ⟨p.data.drop (strLen base + 1)⟩ else p

/-- Directory-level parts of a relative route-file path: strip the route or
middleware suffix, split on the separator, and drop parts that are empty or
literally `index` (`pathPart.split(sep).filter(p => p && p !== 'index')`). -/
def routeParts (relativePath : String) : List String :=
  (splitChar '/' (stripRouteSuffixes relativePath)).filter
    (fun p => !(p = "") && !(p = "index"))

/-- The compiled route path of a relative route-file path: join the converted
components with `/`, prefix `/`, collapse repeated slashes, then append `/*`
when a catch-all was reached. -/
def routePathOf (relativePath : String) : String :=
  if (processParts (routeParts relativePath)).2.2 then
    collapseSlashes ("/" ++ joinSlash (processParts (routeParts relativePath)).2.1) ++ "/*"
  else
    collapseSlashes ("/" ++ joinSlash (processParts (routeParts relativePath)).2.1)

/-- Source `parseRouteFile(filePath, routesDir)`: compiles the path
relative to `routesDir` and builds the descriptor, whose middleware flag
comes from the file-path suffix and whose handlers start empty. -/
def parseRouteFile (filePath routesDir : String) : ParsedRoute :=
  { path := routePathOf (pathRelative routesDir filePath)
    pattern := routePathOf (pathRelative routesDir filePath)
    paramNames := (processParts (routeParts (pathRelative routesDir filePath))).1
    filePath := filePath
    handlers := []
    isMiddleware :=
      strEndsWith filePath ".middleware.ts" || strEndsWith filePath ".middleware.js"
    specificMethod := none }

/-- The filename test of `scanDirectory`: the four qualifying conventions. -/
def qualifies (entry : String) : Bool :=
  strEndsWith entry ".route.ts" || strEndsWith entry ".route.js" ||
  strEndsWith entry ".middleware.ts" || strEndsWith entry ".middleware.js" ||
  entry = "route.ts" || entry = "route.js"

/-- A filesystem node: the argument of the recursive directory walk. -/
inductive FsTree where
  | file (name : String)
  | dir (name : String) (entries : List FsTree)
deriving Repr

mutual

/-- Relative component paths of the qualifying files below one node, in the
order `scanDirectory` visits them (depth-first, entries in list order). -/
def collectFiles : FsTree → List (List String)
  | .file name => if qualifies name then [[name]] else []
  | .dir name entries => (collectEntries entries).map (fun p => name :: p)

/-- Relative component paths of the qualifying files below a list of
directory entries, in visit order. -/
def collectEntries : List FsTree → List (List String)
  | [] => []
  | t :: ts => collectFiles t ++ collectEntries ts

end

/-- The unsorted descriptor list accumulated by `scanDirectory`: one
`parseRouteFile` result per qualifying file, in traversal order. -/
def routesOf (routesDir : String) (entries : List FsTree) : List ParsedRoute :=
  (collectEntries entries).map
    (fun comps => parseRouteFile (routesDir ++ "/" ++ joinSlash comps) routesDir)

/-- Number of `'/'`-delimited components of a route path,
JS `path.split('/').length`. -/
def routeDepth (p : String) : Nat := (splitChar '/' p).length

/-- The string three-way comparison modelling `b.localeCompare(a)` (code-point
collation): negative when `x < y`, zero when equal, positive otherwise. -/
def cmpInt (x y : String) : Int := if x < y then -1 else if x = y then 0 else 1

/-- The sort comparator of `parseRoutes`:
middleware first, then depth descending, then `b.path.localeCompare(a.path)`. -/
def routeCompare (a b : ParsedRoute) : Int :=
  if a.isMiddleware && !b.isMiddleware then -1
  else if !a.isMiddleware && b.isMiddleware then 1
  else
    let aDepth := routeDepth a.path
    let bDepth := routeDepth b.path
    if aDepth ≠ bDepth then (bDepth : Int) - (aDepth : Int)
    else cmpInt b.path a.path

/-- The total preorder induced by the comparator: `a` may be placed no later
than `b` exactly when the comparator does not order `b` strictly first. -/
def sortLE (a b : ParsedRoute) : Prop := routeCompare a b ≤ 0

instance : DecidableRel sortLE := fun _ _ => inferInstanceAs (Decidable (_ ≤ _))

/-- Source `parseRoutes(routesDir)`, over an explicit directory tree:
scan, then sort with the comparator.  `Array.prototype.sort` with a consistent
comparator produces the stable sorted permutation, which insertion sort
computes. -/
def parseRoutes (routesDir : String) (entries : List FsTree) : List ParsedRoute :=
  (routesOf routesDir entries).insertionSort sortLE

/-- The exports of a dynamically imported route module: each of the seven
HTTP-method exports plus the `default` export, `none` when the module does not
have that export. -/
structure JsModule where
  GET : Option Handler := none
  POST : Option Handler := none
  PUT : Option Handler := none
  DELETE : Option Handler := none
  PATCH : Option Handler := none
  HEAD : Option Handler := none
  OPTIONS : Option Handler := none
  dflt : Option Handler := none
deriving DecidableEq, Repr

/-- The object literal assigned to `route.handlers` by `loadRouteHandlers`:
every key is written, in source order, each bound to the module's export of
that name (so a missing export yields a key holding `undefined`). -/
def handlersOfModule (m : JsModule) : Handlers :=
  [("GET", m.GET), ("POST", m.POST), ("PUT", m.PUT), ("DELETE", m.DELETE),
   ("PATCH", m.PATCH), ("HEAD", m.HEAD), ("OPTIONS", m.OPTIONS), ("default", m.dflt)]

/-- Source `loadRouteHandlers(route)`, with the dynamic import
modelled by the map `load` from file path to module: overwrite the `handlers`
field with the object built from the imported module's exports. -/
def loadRouteHandlers (load : String → JsModule) (route : ParsedRoute) : ParsedRoute :=
  { route with handlers := handlersOfModule (load route.filePath) }

/-- One observable adapter invocation made by `createRouter`. -/
inductive AdapterCall where
  | middleware (path : String) (handler : Handler)
  | route (method : String) (path : String) (handler : Handler)
  | defaultHandler (path : String) (handler : Handler) (registeredMethods : List String)
deriving DecidableEq, Repr

/-- Whether an adapter call is a `registerMiddleware` call. -/
def AdapterCall.isMiddlewareCall : AdapterCall → Bool
  | .middleware _ _ => true
  | _ => false

/-- ASCII lower-casing, JS `method.toLowerCase()` on the method names. -/
def strToLower (s : String) : String := ⟨s.data.map Char.toLower⟩

/-- One conditional `methods.push({ method, handler })` of `createRouter`:
the entry is appended exactly when the handler is (truthily) present. -/
def methodChunk (name : String) (o : Option Handler) : List (String × Handler) :=
  match o with
  | some h => [(name, h)]
  | none => []

/-- The `methods` array built by `createRouter` for a non-middleware
descriptor: one entry per present handler, tested in the fixed source order
GET, POST, PUT, DELETE, PATCH, OPTIONS, HEAD. -/
def collectMethods (hs : Handlers) : List (String × Handler) :=
  methodChunk "GET" (jsGet hs "GET") ++
  methodChunk "POST" (jsGet hs "POST") ++
  methodChunk "PUT" (jsGet hs "PUT") ++
  methodChunk "DELETE" (jsGet hs "DELETE") ++
  methodChunk "PATCH" (jsGet hs "PATCH") ++
  methodChunk "OPTIONS" (jsGet hs "OPTIONS") ++
  methodChunk "HEAD" (jsGet hs "HEAD")

/-- The adapter calls `createRouter` issues for one descriptor (after its
handlers are loaded): a middleware descriptor registers `handlers.default`,
falling back to `handlers.GET`, or nothing; a route descriptor registers each
present method in the fixed order while accumulating the lower-cased method
names, then registers the default handler with that list when
`handlers.default` exists. -/
def descriptorCalls (transform : String → String) (route : ParsedRoute) : List AdapterCall :=
  let tp := transform route.path
  if route.isMiddleware then
    match jsGet route.handlers "default" with
    | some h => [.middleware tp h]
    | none =>
      match jsGet route.handlers "GET" with
      | some h => [.middleware tp h]
      | none => []
  else
    let ms := collectMethods route.handlers
    ms.map (fun p => AdapterCall.route p.1 tp p.2) ++
      (match jsGet route.handlers "default" with
       | some h => [.defaultHandler tp h (ms.map (fun p => strToLower p.1))]
       | none => [])

/-- Sequential flattening of per-element call lists: the trace of a loop that
finishes all of one element's calls before touching the next element. -/
def flatMapL (f : α → List β) : List α → List β
  | [] => []
  | a :: as => f a ++ flatMapL f as

/-- Source `createRouter(adapter, options)`, as the trace of adapter
calls it issues: parse and sort, then for each descriptor in order load its
handlers (sequential `await`) and issue the descriptor's registrations.  The
adapter is abstracted by its `transformPath` function `transform` and the
dynamic import by `load`; the verbose logger has no registration effect. -/
def createRouter (transform : String → String) (load : String → JsModule)
    (routesDir : String) (entries : List FsTree) : List AdapterCall :=
  flatMapL (fun r => descriptorCalls transform (loadRouteHandlers load r))
    (parseRoutes routesDir entries)

/-- Module map for scratch checks: `auth.middleware.ts` exports only
`default`; `users.route.ts` exports only `GET`. -/
def load₀ : String → JsModule := fun fp =>
  if fp = "/app/auth.middleware.ts" then { dflt := some ⟨1⟩ }
  else if fp = "/app/users.route.ts" then { GET := some ⟨2⟩ }
  else {}

example :
    createRouter (fun p => p) load₀ "/app"
        [.file "users.route.ts", .file "auth.middleware.ts"] =
      [.middleware "/auth" ⟨1⟩, .route "GET" "/users" ⟨2⟩] := by decide

example :
    createRouter (fun p => p) (fun _ => { GET := some ⟨1⟩, POST := some ⟨2⟩, dflt := some ⟨3⟩ })
        "/app" [.file "items.route.ts"] =
      [.route "GET" "/items" ⟨1⟩, .route "POST" "/items" ⟨2⟩,
       .defaultHandler "/items" ⟨3⟩ ["get", "post"]] := by decide

/-! ### Properties of the sort comparator -/

/-- The comparator preorder spelt out: `a` is placed no later than `b` exactly
when `a` is middleware and `b` is not, or both are of the same class and `a`
is strictly deeper, or both are of the same class and depth and `b.path` is at
most `a.path` in string order. -/
theorem sortLE_iff (a b : ParsedRoute) :
    sortLE a b ↔
      (a.isMiddleware = true ∧ b.isMiddleware = false)
      ∨ (a.isMiddleware = b.isMiddleware ∧ routeDepth b.path < routeDepth a.path)
      ∨ (a.isMiddleware = b.isMiddleware ∧ routeDepth a.path = routeDepth b.path ∧
          b.path ≤ a.path) := by
  unfold sortLE routeCompare cmpInt
  cases ha : a.isMiddleware <;> cases hb : b.isMiddleware
  case false.false | true.true =>
    simp only [Bool.and_self, Bool.not_true, Bool.not_false, Bool.and_true, Bool.and_false,
      Bool.true_and, Bool.false_and, if_false, Bool.false_eq_true, Bool.true_eq_false,
      false_and, true_and, false_or]
    rcases eq_or_ne (routeDepth a.path) (routeDepth b.path) with hd | hd
    · rw [if_neg (by omega)]
      simp only [hd, lt_irrefl, false_or, true_and]
      split_ifs with h1 h2
      · simp [le_of_lt h1]
      · simp [le_of_eq h2]
      · have : ¬ b.path ≤ a.path := by
          rw [le_iff_lt_or_eq]
          rintro (h | h) <;> [exact h1 h; exact h2 h]
        simp only [this, iff_false]
        omega
    · rw [if_pos hd]
      constructor
      · intro h'
        exact Or.inl (by omega)
      · rintro (h' | ⟨h', _⟩)
        · omega
        · exact absurd h' hd
  case true.false => simp
  case false.true => simp

instance : IsTotal ParsedRoute sortLE := by
  constructor
  intro a b
  rw [sortLE_iff, sortLE_iff]
  cases ha : a.isMiddleware <;> cases hb : b.isMiddleware
  case false.false | true.true =>
    simp only [Bool.false_eq_true, Bool.true_eq_false, false_and, and_false, true_and,
      and_self, false_or, and_true]
    rcases Nat.lt_trichotomy (routeDepth a.path) (routeDepth b.path) with h | h | h
    · exact Or.inr (Or.inl h)
    · rcases le_total b.path a.path with hs | hs
      · exact Or.inl (Or.inr ⟨h, hs⟩)
      · exact Or.inr (Or.inr ⟨h.symm, hs⟩)
    · exact Or.inl (Or.inl h)
  case true.false => simp
  case false.true => simp

instance : IsTrans ParsedRoute sortLE := by
  constructor
  intro a b c hab hbc
  rw [sortLE_iff] at hab hbc ⊢
  cases ha : a.isMiddleware <;> cases hb : b.isMiddleware <;> cases hc : c.isMiddleware <;>
    simp only [ha, hb, hc, Bool.false_eq_true, Bool.true_eq_false, false_and, and_false,
      true_and, and_self, false_or, or_false, and_true] at hab hbc ⊢ <;>
    try exact hab.elim
  all_goals
    rcases hab with h1 | ⟨h1, h1'⟩ <;> rcases hbc with h2 | ⟨h2, h2'⟩
  all_goals
    first
      | exact Or.inl (by omega)
      | exact Or.inr ⟨by omega, le_trans h2' h1'⟩

/-- The list `parseRoutes` returns is sorted by the comparator preorder. -/
theorem parseRoutes_sorted (routesDir : String) (entries : List FsTree) :
    List.Sorted sortLE (parseRoutes routesDir entries) :=
  List.sorted_insertionSort sortLE (routesOf routesDir entries)

/-- Membership in the sorted output coincides with membership in the scanned
descriptor list. -/
theorem mem_parseRoutes {routesDir : String} {entries : List FsTree} {r : ParsedRoute} :
    r ∈ parseRoutes routesDir entries ↔ r ∈ routesOf routesDir entries :=
  List.mem_insertionSort sortLE

example : splitChar '/' "a//b" = ["a", "", "b"] := by decide
example : splitChar '/' "" = [""] := by decide
example : tokenizePart "users.[id]" = ["users", "[id]"] := by decide
example : tokenizePart "[...path]" = ["[...path]"] := by decide
example : collapseSlashes "//a///b" = "/a/b" := by decide
example :
    (parseRoutes "/app" [.dir "files" [.dir "[...path]" [.file "extra.route.ts"]]]).map
      (fun r => (r.path, r.paramNames)) = [("/files/*", ["path"])] := by decide
example :
    (parseRoutes "/app" [.file "[...all].route.ts"]).map (fun r => r.path) = ["//*"] := by
  decide
example : parseRoutes "/app" [.file "middleware.ts"] = [] := by decide
example :
    (parseRoutes "/app" [.file "route.ts"]).map (fun r => (r.path, r.isMiddleware)) =
      [("/", false)] := by decide
example :
    (parseRoutes "/app" [.file "users.[id].route.ts"]).map
      (fun r => (r.path, r.paramNames, r.isMiddleware)) = [("/users/:id", ["id"], false)] := by
  decide

/-! ### Catch-all truncation -/

/-- Once the segments of a prefix have reached a catch-all, appending further
segments does not change the result of the inner segment loop. -/
theorem processSegments_append (ss ts : List String)
    (h : (processSegments ss).2.2 = true) :
    processSegments (ss ++ ts) = processSegments ss := by
  induction ss with
  | nil => simp [processSegments] at h
  | cons seg rest ih =>
    by_cases hca : isCatchAllSeg seg
    · simp [processSegments, hca]
    · by_cases hdy : isDynamicSeg seg
      · have h' : (processSegments rest).2.2 = true := by
          simpa [processSegments, hca, hdy] using h
        simp [processSegments, hca, hdy, ih h']
      · by_cases hemp : seg = ""
        · have h' : (processSegments rest).2.2 = true := by
            simpa [processSegments, hca, hdy, hemp] using h
          simp [processSegments, hca, hdy, hemp, ih h']
        · have h' : (processSegments rest).2.2 = true := by
            simpa [processSegments, hca, hdy, hemp] using h
          simp [processSegments, hca, hdy, hemp, ih h']

/-- Once the parts processed so far have reached a catch-all, appending
further directory-level parts does not change the result of the outer part
loop. -/
theorem processParts_append (xs ys : List String)
    (h : (processParts xs).2.2 = true) :
    processParts (xs ++ ys) = processParts xs := by
  induction xs with
  | nil => simp [processParts] at h
  | cons part rest ih =>
    by_cases hc : (processSegments (tokenizePart part)).2.2 = true
    · simp [processParts, hc]
    · have h' : (processParts rest).2.2 = true := by
        simpa [processParts, hc] using h
      simp [processParts, hc, ih h']

/-- C1: for every qualifying file whose relative path contains a catch-all
token, compilation stops at that token: segments after a catch-all within a
part, and parts after a catch-all-carrying part, contribute nothing; for the
input file `files/[...path]/extra.route.ts`, `parseRoutes` produces exactly
one descriptor whose `routePath` is `/files/*` (so it does not contain the
literal text "extra") and whose `parameterNames` is exactly `["path"]`. -/
theorem catchAll_truncation :
    (∀ ss ts : List String, (processSegments ss).2.2 = true →
      processSegments (ss ++ ts) = processSegments ss)
    ∧ (∀ xs ys : List String, (processParts xs).2.2 = true →
      processParts (xs ++ ys) = processParts xs)
    ∧ (parseRoutes "/app" [.dir "files" [.dir "[...path]" [.file "extra.route.ts"]]]).map
        (fun r => (r.path, r.paramNames)) = [("/files/*", ["path"])] :=
  ⟨processSegments_append, processParts_append, by decide⟩

/-- Witness for `catchAll_truncation` at the claim's concrete input: the parts
of `files/[...path]/extra` truncate at the catch-all part. -/
theorem catchAll_truncation_witness :
    processParts (["files", "[...path]"] ++ ["extra"]) = processParts ["files", "[...path]"] :=
  catchAll_truncation.2.1 ["files", "[...path]"] ["extra"] (by decide)

/-! ### Sort order of the returned sequence -/

/-- C2: the sequence returned by `parseRoutes` is ordered so that every
middleware descriptor precedes every non-middleware descriptor; within the
same class, greater `/`-component count (depth) comes first; at equal class
and depth, routePaths descend in string order. -/
theorem parseRoutes_sort_order (routesDir : String) (entries : List FsTree) :
    List.Pairwise (fun a b : ParsedRoute =>
      (a.isMiddleware = true ∧ b.isMiddleware = false)
      ∨ (a.isMiddleware = b.isMiddleware ∧ routeDepth b.path < routeDepth a.path)
      ∨ (a.isMiddleware = b.isMiddleware ∧ routeDepth a.path = routeDepth b.path ∧
          b.path ≤ a.path)) (parseRoutes routesDir entries) :=
  List.Pairwise.imp (fun h => (sortLE_iff _ _).mp h) (parseRoutes_sorted routesDir entries)

/-- Witness for `parseRoutes_sort_order` at a concrete two-file tree. -/
theorem parseRoutes_sort_order_witness :
    List.Pairwise (fun a b : ParsedRoute =>
      (a.isMiddleware = true ∧ b.isMiddleware = false)
      ∨ (a.isMiddleware = b.isMiddleware ∧ routeDepth b.path < routeDepth a.path)
      ∨ (a.isMiddleware = b.isMiddleware ∧ routeDepth a.path = routeDepth b.path ∧
          b.path ≤ a.path))
      (parseRoutes "/app" [.file "users.route.ts", .file "auth.middleware.ts"]) :=
  parseRoutes_sort_order "/app" [.file "users.route.ts", .file "auth.middleware.ts"]

/-! ### Root-level catch-all anomaly -/

/-- C4: a root-level catch-all file with no preceding static segment compiles
to `routePath = "//*"`: the `/*` is appended after slash-collapse, so the
doubled slash survives. -/
theorem root_catchAll_path :
    (parseRoutes "/app" [.file "[...all].route.ts"]).map
      (fun r => (r.path, r.paramNames)) = [("//*", ["all"])] := by decide

/-! ### Bare middleware stems do not qualify -/

/-- C6 counterexample: a file named exactly `middleware.ts` (or
`middleware.js`) yields no descriptor at all, contradicting the claim that the
bare middleware stem qualifies like the bare route stem does. -/
theorem bare_middleware_counterexample :
    parseRoutes "/app" [.file "middleware.ts"] = [] ∧
    parseRoutes "/app" [.file "middleware.js"] = [] := by decide

/-- C6 amended: only the bare route stem has an exact-name convention —
`route.ts`/`route.js` qualify while `middleware.ts`/`middleware.js` do not;
middleware files are recognized only through the `.middleware.<ext>` suffix
convention. -/
theorem bare_stem_conventions :
    qualifies "middleware.ts" = false ∧ qualifies "middleware.js" = false ∧
    qualifies "route.ts" = true ∧ qualifies "route.js" = true ∧
    qualifies "auth.middleware.ts" = true ∧
    (parseRoutes "/app" [.file "route.ts"]).map (fun r => (r.path, r.isMiddleware)) =
      [("/", false)] ∧
    (parseRoutes "/app" [.file "auth.middleware.ts"]).map
      (fun r => (r.path, r.isMiddleware)) = [("/auth", true)] := by decide

/-! ### Frame property of the load step -/

/-- C10: `loadRouteHandlers` changes only the `handlers` field: `path`,
`pattern`, `paramNames`, `filePath`, `isMiddleware` and `specificMethod` are
returned unchanged, and `handlers` becomes the map built from the loaded
module. -/
theorem loadRouteHandlers_frame (load : String → JsModule) (r : ParsedRoute) :
    (loadRouteHandlers load r).path = r.path ∧
    (loadRouteHandlers load r).pattern = r.pattern ∧
    (loadRouteHandlers load r).paramNames = r.paramNames ∧
    (loadRouteHandlers load r).filePath = r.filePath ∧
    (loadRouteHandlers load r).isMiddleware = r.isMiddleware ∧
    (loadRouteHandlers load r).specificMethod = r.specificMethod ∧
    (loadRouteHandlers load r).handlers = handlersOfModule (load r.filePath) :=
  ⟨rfl, rfl, rfl, rfl, rfl, rfl, rfl⟩

/-- Witness for `loadRouteHandlers_frame` at a concrete route and module. -/
theorem loadRouteHandlers_frame_witness :
    (loadRouteHandlers (fun _ => {}) (parseRouteFile "/app/a.route.ts" "/app")).path =
      (parseRouteFile "/app/a.route.ts" "/app").path :=
  (loadRouteHandlers_frame (fun _ => {}) (parseRouteFile "/app/a.route.ts" "/app")).1

/-! ### Handler map contents after the load step -/

/-- The module's export of a given method name (or "default"). -/
def moduleExport (m : JsModule) : String → Option Handler := fun k =>
  if k = "GET" then m.GET
  else if k = "POST" then m.POST
  else if k = "PUT" then m.PUT
  else if k = "DELETE" then m.DELETE
  else if k = "PATCH" then m.PATCH
  else if k = "HEAD" then m.HEAD
  else if k = "OPTIONS" then m.OPTIONS
  else if k = "default" then m.dflt
  else none

/-- C7 counterexample: for a module with no exports at all, the handlers map
written by `loadRouteHandlers` still has a `"GET"` entry (key present), whose
value is the `undefined` placeholder — the claim that an absent export leaves
the map entry absent is false. -/
theorem handlers_key_counterexample :
    hasKey (loadRouteHandlers (fun _ => {})
        (parseRouteFile "/app/users.route.ts" "/app")).handlers "GET" = true
    ∧ ({} : JsModule).GET.isSome = false
    ∧ jsGet (loadRouteHandlers (fun _ => {})
        (parseRouteFile "/app/users.route.ts" "/app")).handlers "GET" = none := by decide

/-- C7 amended: after `loadRouteHandlers`, the handlers map has an entry for
every one of the eight names whatever the module exports; the value stored at
a name is the module's export of that name (`undefined` when the export is
absent), so a truthy entry exists exactly for the exported names. -/
theorem handlers_entries_after_load (load : String → JsModule) (r : ParsedRoute) (k : String)
    (hk : k ∈ ["GET", "POST", "PUT", "DELETE", "PATCH", "HEAD", "OPTIONS", "default"]) :
    hasKey (loadRouteHandlers load r).handlers k = true
    ∧ jsGet (loadRouteHandlers load r).handlers k = moduleExport (load r.filePath) k := by
  simp only [List.mem_cons, List.not_mem_nil, or_false] at hk
  rcases hk with rfl | rfl | rfl | rfl | rfl | rfl | rfl | rfl <;> exact ⟨rfl, rfl⟩

/-- Witness for `handlers_entries_after_load` at a concrete module and key. -/
theorem handlers_entries_after_load_witness :
    hasKey (loadRouteHandlers (fun _ => {})
        (parseRouteFile "/app/users.route.ts" "/app")).handlers "GET" = true
    ∧ jsGet (loadRouteHandlers (fun _ => {})
        (parseRouteFile "/app/users.route.ts" "/app")).handlers "GET" =
      moduleExport {} "GET" :=
  handlers_entries_after_load (fun _ => {})
    (parseRouteFile "/app/users.route.ts" "/app") "GET" (by decide)

/-! ### Default-handler exclusion list -/

/-- The registered-methods list as the spec words it: the lower-cased names
of exactly the methods whose handlers are present, in the fixed order GET,
POST, PUT, DELETE, PATCH, OPTIONS, HEAD.  Stated from the spec, to be
compared with the list the factory actually accumulates. -/
def specRegisteredMethods (m : JsModule) : List String :=
  (if m.GET.isSome then ["get"] else []) ++
  (if m.POST.isSome then ["post"] else []) ++
  (if m.PUT.isSome then ["put"] else []) ++
  (if m.DELETE.isSome then ["delete"] else []) ++
  (if m.PATCH.isSome then ["patch"] else []) ++
  (if m.OPTIONS.isSome then ["options"] else []) ++
  (if m.HEAD.isSome then ["head"] else [])

theorem jsGet_handlersOfModule_GET (m : JsModule) :
    jsGet (handlersOfModule m) "GET" = m.GET := rfl

theorem jsGet_handlersOfModule_POST (m : JsModule) :
    jsGet (handlersOfModule m) "POST" = m.POST := rfl

theorem jsGet_handlersOfModule_PUT (m : JsModule) :
    jsGet (handlersOfModule m) "PUT" = m.PUT := rfl

theorem jsGet_handlersOfModule_DELETE (m : JsModule) :
    jsGet (handlersOfModule m) "DELETE" = m.DELETE := rfl

theorem jsGet_handlersOfModule_PATCH (m : JsModule) :
    jsGet (handlersOfModule m) "PATCH" = m.PATCH := rfl

theorem jsGet_handlersOfModule_HEAD (m : JsModule) :
    jsGet (handlersOfModule m) "HEAD" = m.HEAD := rfl

theorem jsGet_handlersOfModule_OPTIONS (m : JsModule) :
    jsGet (handlersOfModule m) "OPTIONS" = m.OPTIONS := rfl

theorem jsGet_handlersOfModule_default (m : JsModule) :
    jsGet (handlersOfModule m) "default" = m.dflt := rfl

/-- Lower-cased method names contributed by one conditional push. -/
theorem methodChunk_map_lower (name lower : String) (o : Option Handler)
    (h : strToLower name = lower) :
    (methodChunk name o).map (fun p => strToLower p.1) =
      if o.isSome then [lower] else [] := by
  cases o <;> simp [methodChunk, h]

/-- The list of lower-cased names the factory accumulates while registering a
module's handlers equals the spec's registered-methods list. -/
theorem registeredMethods_eq_spec (m : JsModule) :
    (collectMethods (handlersOfModule m)).map (fun p => strToLower p.1) =
      specRegisteredMethods m := by
  simp only [collectMethods, jsGet_handlersOfModule_GET, jsGet_handlersOfModule_POST,
    jsGet_handlersOfModule_PUT, jsGet_handlersOfModule_DELETE, jsGet_handlersOfModule_PATCH,
    jsGet_handlersOfModule_HEAD, jsGet_handlersOfModule_OPTIONS, List.map_append]
  rw [methodChunk_map_lower "GET" "get" m.GET (by decide),
    methodChunk_map_lower "POST" "post" m.POST (by decide),
    methodChunk_map_lower "PUT" "put" m.PUT (by decide),
    methodChunk_map_lower "DELETE" "delete" m.DELETE (by decide),
    methodChunk_map_lower "PATCH" "patch" m.PATCH (by decide),
    methodChunk_map_lower "OPTIONS" "options" m.OPTIONS (by decide),
    methodChunk_map_lower "HEAD" "head" m.HEAD (by decide)]
  rfl

/-- C5: for a non-middleware descriptor whose handlers were loaded from
module `m`, a `registerDefaultHandler` call is issued iff `m` has a default
export, and the `registeredMethods` list passed to it is exactly the
lower-cased names of the present methods in the fixed order GET, POST, PUT,
DELETE, PATCH, OPTIONS, HEAD; in particular a module exporting GET and POST
plus default yields `["get", "post"]`. -/
theorem default_handler_exclusion (tf : String → String) (m : JsModule) (r : ParsedRoute)
    (hmw : r.isMiddleware = false) (hh : r.handlers = handlersOfModule m) :
    ((∃ h ms, AdapterCall.defaultHandler (tf r.path) h ms ∈ descriptorCalls tf r) ↔
      m.dflt.isSome = true)
    ∧ (∀ h ms, AdapterCall.defaultHandler (tf r.path) h ms ∈ descriptorCalls tf r →
        ms = specRegisteredMethods m)
    ∧ descriptorCalls (fun p => p)
        (loadRouteHandlers (fun _ => { GET := some ⟨1⟩, POST := some ⟨2⟩, dflt := some ⟨3⟩ })
          (parseRouteFile "/app/items.route.ts" "/app")) =
      [.route "GET" "/items" ⟨1⟩, .route "POST" "/items" ⟨2⟩,
       .defaultHandler "/items" ⟨3⟩ ["get", "post"]] := by
  refine ⟨?_, ?_, by decide⟩ <;>
    simp only [descriptorCalls, hmw, hh, Bool.false_eq_true, if_false,
      jsGet_handlersOfModule_default]
  · cases hd : m.dflt with
    | none =>
      simp only [Option.isSome_none, Bool.false_eq_true, iff_false, List.append_nil]
      rintro ⟨h, ms, hmem⟩
      rcases List.mem_map.mp hmem with ⟨p, -, hp⟩
      exact absurd hp (by simp)
    | some h0 =>
      simp only [Option.isSome_some, iff_true]
      exact ⟨h0, _, List.mem_append_right _ (List.mem_singleton.mpr rfl)⟩
  · intro h ms hmem
    cases hd : m.dflt with
    | none =>
      rw [hd, List.append_nil] at hmem
      rcases List.mem_map.mp hmem with ⟨p, -, hp⟩
      exact absurd hp (by simp)
    | some h0 =>
      rw [hd] at hmem
      rcases List.mem_append.mp hmem with hmem | hmem
      · rcases List.mem_map.mp hmem with ⟨p, -, hp⟩
        exact absurd hp (by simp)
      · have := List.mem_singleton.mp hmem
        have hms : ms = (collectMethods (handlersOfModule m)).map (fun p => strToLower p.1) :=
          (AdapterCall.defaultHandler.injEq _ _ _ _ _ _).mp this |>.2.2
        rw [hms, registeredMethods_eq_spec]

/-- Witness for `default_handler_exclusion`: the concrete GET+POST+default
module, whose exclusion list is `["get", "post"]`. -/
theorem default_handler_exclusion_witness :
    descriptorCalls (fun p => p)
        (loadRouteHandlers (fun _ => { GET := some ⟨1⟩, POST := some ⟨2⟩, dflt := some ⟨3⟩ })
          (parseRouteFile "/app/items.route.ts" "/app")) =
      [.route "GET" "/items" ⟨1⟩, .route "POST" "/items" ⟨2⟩,
       .defaultHandler "/items" ⟨3⟩ ["get", "post"]] :=
  (default_handler_exclusion (fun p => p)
      { GET := some ⟨1⟩, POST := some ⟨2⟩, dflt := some ⟨3⟩ }
      (loadRouteHandlers (fun _ => { GET := some ⟨1⟩, POST := some ⟨2⟩, dflt := some ⟨3⟩ })
        (parseRouteFile "/app/items.route.ts" "/app"))
      (by decide) rfl).2.2

/-! ### Middleware handler selection -/

/-- C8: for a middleware descriptor whose handlers were loaded from module
`m`, the factory registers the default export when present, else the GET
export, and registers nothing at all (without error) when neither exists. -/
theorem middleware_handler_selection (tf : String → String) (r : ParsedRoute) (m : JsModule)
    (hmw : r.isMiddleware = true) (hh : r.handlers = handlersOfModule m) :
    (∀ h, m.dflt = some h → descriptorCalls tf r = [.middleware (tf r.path) h])
    ∧ (m.dflt = none → ∀ h, m.GET = some h →
        descriptorCalls tf r = [.middleware (tf r.path) h])
    ∧ (m.dflt = none → m.GET = none → descriptorCalls tf r = []) := by
  refine ⟨?_, ?_, ?_⟩ <;> intros <;>
    simp [descriptorCalls, hmw, hh, jsGet_handlersOfModule_default,
      jsGet_handlersOfModule_GET, *]

/-- Witness for `middleware_handler_selection` at a middleware file whose
module has only a default export. -/
theorem middleware_handler_selection_witness :
    descriptorCalls (fun p => p)
        (loadRouteHandlers (fun _ => { dflt := some ⟨1⟩ })
          (parseRouteFile "/app/auth.middleware.ts" "/app")) =
      [.middleware "/auth" ⟨1⟩] :=
  (middleware_handler_selection (fun p => p)
      (loadRouteHandlers (fun _ => { dflt := some ⟨1⟩ })
        (parseRouteFile "/app/auth.middleware.ts" "/app"))
      { dflt := some ⟨1⟩ } (by decide) rfl).1 ⟨1⟩ rfl

/-! ### Registration order mirrors sort order -/

theorem mem_flatMapL {f : α → List β} {x : β} (l : List α) :
    x ∈ flatMapL f l ↔ ∃ a ∈ l, x ∈ f a := by
  induction l with
  | nil => simp [flatMapL]
  | cons a as ih => simp [flatMapL, List.mem_append, ih]

theorem pairwise_of_forall_mem_rel {R : β → β → Prop} :
    ∀ l : List β, (∀ x ∈ l, ∀ y ∈ l, R x y) → l.Pairwise R := by
  intro l h
  induction l with
  | nil => exact List.Pairwise.nil
  | cons a as ih =>
    constructor
    · exact fun y hy => h a (List.mem_cons_self a as) y (List.mem_cons_of_mem _ hy)
    · exact ih fun x hx y hy =>
        h x (List.mem_cons_of_mem _ hx) y (List.mem_cons_of_mem _ hy)

/-- Pairwise ordering of a sequentially flattened trace, from pairwise
ordering within each block and across blocks. -/
theorem pairwise_flatMapL {R : β → β → Prop} {f : α → List β} :
    ∀ l : List α, (∀ a ∈ l, (f a).Pairwise R) →
      l.Pairwise (fun a b => ∀ x ∈ f a, ∀ y ∈ f b, R x y) →
      (flatMapL f l).Pairwise R := by
  intro l h1 h2
  induction l with
  | nil => exact List.Pairwise.nil
  | cons a as ih =>
    obtain ⟨hhead, htail⟩ := List.pairwise_cons.mp h2
    rw [flatMapL, List.pairwise_append]
    refine ⟨h1 a (List.mem_cons_self a as),
      ih (fun b hb => h1 b (List.mem_cons_of_mem _ hb)) htail, ?_⟩
    intro x hx y hy
    rcases (mem_flatMapL as).mp hy with ⟨b, hb, hyb⟩
    exact hhead b hb x hx y hyb

/-- Every adapter call a descriptor produces carries the descriptor's own
middleware classification. -/
theorem descriptorCalls_tag (tf : String → String) (r : ParsedRoute) (c : AdapterCall)
    (hc : c ∈ descriptorCalls tf r) : c.isMiddlewareCall = r.isMiddleware := by
  cases hmw : r.isMiddleware <;> simp only [descriptorCalls, hmw, if_true, if_false,
    Bool.false_eq_true, Bool.true_eq_false] at hc
  · rcases List.mem_append.mp hc with h | h
    · rcases List.mem_map.mp h with ⟨p, -, rfl⟩
      rfl
    · cases hd : jsGet r.handlers "default" <;> rw [hd] at h
      · exact absurd h (List.not_mem_nil c)
      · rw [List.mem_singleton.mp h]
        rfl
  · cases hd : jsGet r.handlers "default" <;> rw [hd] at hc
    · cases hg : jsGet r.handlers "GET" <;> rw [hg] at hc
      · exact absurd hc (List.not_mem_nil c)
      · rw [List.mem_singleton.mp hc]
        rfl
    · rw [List.mem_singleton.mp hc]
      rfl

/-- C9: `createRouter` issues all of one descriptor's adapter calls before
the next descriptor's, in the parser's sorted order, so no `registerRoute` or
`registerDefaultHandler` call ever precedes a `registerMiddleware` call:
whenever a later call in the trace is a middleware registration, every
earlier call is one too.  In the concrete scenario with `auth.middleware.ts`
and `users.route.ts`, `registerMiddleware` is called before `registerRoute`. -/
theorem createRouter_middleware_first :
    (∀ (tf : String → String) (load : String → JsModule) (routesDir : String)
        (entries : List FsTree),
      List.Pairwise (fun c₁ c₂ : AdapterCall =>
        c₂.isMiddlewareCall = true → c₁.isMiddlewareCall = true)
        (createRouter tf load routesDir entries))
    ∧ createRouter (fun p => p) load₀ "/app"
        [.file "auth.middleware.ts", .file "users.route.ts"] =
      [.middleware "/auth" ⟨1⟩, .route "GET" "/users" ⟨2⟩] := by
  refine ⟨?_, by decide⟩
  intro tf load d es
  unfold createRouter
  apply pairwise_flatMapL
  · intro r _
    apply pairwise_of_forall_mem_rel
    intro x hx y hy
    rw [descriptorCalls_tag tf _ x hx, descriptorCalls_tag tf _ y hy]
    exact fun h => h
  · refine List.Pairwise.imp ?_ (parseRoutes_sorted d es)
    intro a b hab x hx y hy
    rw [descriptorCalls_tag tf _ x hx, descriptorCalls_tag tf _ y hy]
    have hla : (loadRouteHandlers load a).isMiddleware = a.isMiddleware := rfl
    have hlb : (loadRouteHandlers load b).isMiddleware = b.isMiddleware := rfl
    rw [hla, hlb]
    rcases (sortLE_iff a b).mp hab with ⟨h, _⟩ | ⟨h, _⟩ | ⟨h, _, _⟩
    · exact fun _ => h
    · intro hb
      rw [h, hb]
    · intro hb
      rw [h, hb]

/-- Witness for `createRouter_middleware_first` at the concrete scenario. -/
theorem createRouter_middleware_first_witness :
    List.Pairwise (fun c₁ c₂ : AdapterCall =>
      c₂.isMiddlewareCall = true → c₁.isMiddlewareCall = true)
      (createRouter (fun p => p) load₀ "/app"
        [.file "auth.middleware.ts", .file "users.route.ts"]) :=
  createRouter_middleware_first.1 (fun p => p) load₀ "/app"
    [.file "auth.middleware.ts", .file "users.route.ts"]

/-! ### No double slash except the root catch-all anomaly -/

theorem head?_collapseAux : ∀ l : List Char, (collapseAux l).head? = l.head?
  | [] => rfl
  | [_] => rfl
  | a :: b :: rest => by
    rw [collapseAux]
    by_cases h : (a = '/' && b = '/') = true
    · rw [if_pos h, head?_collapseAux (b :: rest)]
      obtain ⟨ha, hb⟩ : a = '/' ∧ b = '/' := by simpa using h
      rw [ha, hb]
      rfl
    · rw [if_neg h]
      rfl

theorem collapseAux_ne_nil : ∀ {l : List Char}, l ≠ [] → collapseAux l ≠ [] := by
  intro l hl
  cases l with
  | nil => exact absurd rfl hl
  | cons c cs =>
    intro hc
    have := head?_collapseAux (c :: cs)
    rw [hc] at this
    simp at this

theorem getLast?_collapseAux : ∀ l : List Char, (collapseAux l).getLast? = l.getLast?
  | [] => rfl
  | [_] => rfl
  | a :: b :: rest => by
    rw [collapseAux]
    by_cases h : (a = '/' && b = '/') = true
    · rw [if_pos h, getLast?_collapseAux (b :: rest), List.getLast?_cons_cons]
    · rw [if_neg h]
      have hne : collapseAux (b :: rest) ≠ [] := collapseAux_ne_nil (by simp)
      rw [show a :: collapseAux (b :: rest) = [a] ++ collapseAux (b :: rest) from rfl,
        List.getLast?_append_of_ne_nil _ hne, getLast?_collapseAux (b :: rest),
        List.getLast?_cons_cons]

/-- Slash-collapse leaves no two consecutive slashes. -/
theorem collapse_noAdj : ∀ l : List Char, hasAdjSlashes (collapseAux l) = false
  | [] => rfl
  | [_] => rfl
  | a :: b :: rest => by
    rw [collapseAux]
    by_cases h : (a = '/' && b = '/') = true
    · rw [if_pos h]
      exact collapse_noAdj (b :: rest)
    · rw [if_neg h]
      have hhead : (collapseAux (b :: rest)).head? = some b := head?_collapseAux (b :: rest)
      obtain ⟨X, hX⟩ : ∃ X, collapseAux (b :: rest) = b :: X := by
        cases hc : collapseAux (b :: rest) with
        | nil => rw [hc] at hhead; simp at hhead
        | cons y ys =>
          rw [hc] at hhead
          simp only [List.head?_cons, Option.some.injEq] at hhead
          exact ⟨ys, by rw [hhead]⟩
      rw [hX, hasAdjSlashes]
      have h2 : hasAdjSlashes (b :: X) = false := by
        rw [← hX]
        exact collapse_noAdj (b :: rest)
      simp only [h2, Bool.or_false]
      simpa using h

/-- Whether the junction of two concatenated character lists forms a slash
pair: the first ends in `'/'` and the second starts with `'/'`. -/
def joinAdj (l₁ l₂ : List Char) : Bool :=
  (l₁.getLast?.getD ' ' = '/') && (l₂.head?.getD ' ' = '/')

theorem hasAdj_append : ∀ l₁ l₂ : List Char,
    hasAdjSlashes (l₁ ++ l₂) = (hasAdjSlashes l₁ || hasAdjSlashes l₂ || joinAdj l₁ l₂)
  | [], l₂ => by simp [hasAdjSlashes, joinAdj]
  | [a], l₂ => by
    cases l₂ with
    | nil => simp [hasAdjSlashes, joinAdj]
    | cons b t =>
      show hasAdjSlashes (a :: b :: t) =
        (hasAdjSlashes [a] || hasAdjSlashes (b :: t) || joinAdj [a] (b :: t))
      rw [show hasAdjSlashes [a] = false from rfl,
        show joinAdj [a] (b :: t) = (a = '/' && b = '/') from rfl, Bool.false_or,
        Bool.or_comm]
      rfl
  | a :: b :: rest, l₂ => by
    show hasAdjSlashes (a :: b :: (rest ++ l₂)) = _
    rw [hasAdjSlashes, show b :: (rest ++ l₂) = (b :: rest) ++ l₂ from rfl,
      hasAdj_append (b :: rest) l₂, hasAdjSlashes]
    have hj : joinAdj (a :: b :: rest) l₂ = joinAdj (b :: rest) l₂ := by
      rw [joinAdj, joinAdj, List.getLast?_cons_cons]
    rw [hj]
    simp only [Bool.or_assoc]

theorem mem_of_getLast?_eq_some : ∀ {l : List Char} {a : Char}, l.getLast? = some a → a ∈ l
  | [], _, h => by simp at h
  | [b], a, h => by
    have hb : b = a := by simpa using h
    rw [hb]
    exact List.mem_singleton.mpr rfl
  | b :: c :: rest, a, h => by
    rw [List.getLast?_cons_cons] at h
    exact List.mem_cons_of_mem _ (mem_of_getLast?_eq_some h)

/-- Splitting on a separator yields parts free of that separator. -/
theorem splitAux_no_sep (sep : Char) :
    ∀ (cs cur : List Char), sep ∉ cur → ∀ p ∈ splitAux sep cs cur, sep ∉ p.data := by
  intro cs
  induction cs with
  | nil =>
    intro cur hcur p hp
    rw [splitAux] at hp
    rw [List.mem_singleton.mp hp]
    exact hcur
  | cons c cs ih =>
    intro cur hcur p hp
    rw [splitAux] at hp
    by_cases hc : c = sep
    · rw [if_pos hc] at hp
      rcases List.mem_cons.mp hp with rfl | h
      · exact hcur
      · exact ih [] (List.not_mem_nil sep) p h
    · rw [if_neg hc] at hp
      refine ih (cur ++ [c]) ?_ p hp
      intro hmem
      rcases List.mem_append.mp hmem with h | h
      · exact hcur h
      · exact hc (List.mem_singleton.mp h).symm

/-- Tokens produced by the bracket-aware tokenizer are non-empty and consist
of characters of the accumulator or the input. -/
theorem tokenizeAux_props :
    ∀ (cs cur : List Char) (inB : Bool) (t : List Char), t ∈ tokenizeAux cs cur inB →
      t ≠ [] ∧ ∀ c ∈ t, c ∈ cur ∨ c ∈ cs := by
  intro cs
  induction cs with
  | nil =>
    intro cur inB t ht
    rw [tokenizeAux] at ht
    by_cases h : cur = []
    · rw [if_pos h] at ht
      exact absurd ht (List.not_mem_nil t)
    · rw [if_neg h] at ht
      rw [List.mem_singleton.mp ht]
      exact ⟨h, fun c hc => Or.inl hc⟩
  | cons c0 cs ih =>
    intro cur inB t ht
    rw [tokenizeAux] at ht
    by_cases h1 : c0 = '['
    · rw [if_pos h1] at ht
      obtain ⟨hne, hsub⟩ := ih (cur ++ ['[']) true t ht
      refine ⟨hne, fun c hc => ?_⟩
      rcases hsub c hc with hcur | hcs
      · rcases List.mem_append.mp hcur with h | h
        · exact Or.inl h
        · rw [List.mem_singleton.mp h, ← h1]
          exact Or.inr (List.mem_cons_self _ _)
      · exact Or.inr (List.mem_cons_of_mem _ hcs)
    · rw [if_neg h1] at ht
      by_cases h2 : c0 = ']'
      · rw [if_pos h2] at ht
        obtain ⟨hne, hsub⟩ := ih (cur ++ [']']) false t ht
        refine ⟨hne, fun c hc => ?_⟩
        rcases hsub c hc with hcur | hcs
        · rcases List.mem_append.mp hcur with h | h
          · exact Or.inl h
          · rw [List.mem_singleton.mp h, ← h2]
            exact Or.inr (List.mem_cons_self _ _)
        · exact Or.inr (List.mem_cons_of_mem _ hcs)
      · rw [if_neg h2] at ht
        by_cases h3 : (c0 = '.' && !inB) = true
        · rw [if_pos h3] at ht
          by_cases h4 : cur = []
          · rw [if_pos h4] at ht
            obtain ⟨hne, hsub⟩ := ih [] inB t ht
            refine ⟨hne, fun c hc => ?_⟩
            rcases hsub c hc with hcur | hcs
            · exact absurd hcur (List.not_mem_nil c)
            · exact Or.inr (List.mem_cons_of_mem _ hcs)
          · rw [if_neg h4] at ht
            rcases List.mem_cons.mp ht with rfl | h
            · exact ⟨h4, fun c hc => Or.inl hc⟩
            · obtain ⟨hne, hsub⟩ := ih [] inB t h
              refine ⟨hne, fun c hc => ?_⟩
              rcases hsub c hc with hcur | hcs
              · exact absurd hcur (List.not_mem_nil c)
              · exact Or.inr (List.mem_cons_of_mem _ hcs)
        · rw [if_neg h3] at ht
          obtain ⟨hne, hsub⟩ := ih (cur ++ [c0]) inB t ht
          refine ⟨hne, fun c hc => ?_⟩
          rcases hsub c hc with hcur | hcs
          · rcases List.mem_append.mp hcur with h | h
            · exact Or.inl h
            · rw [List.mem_singleton.mp h]
              exact Or.inr (List.mem_cons_self _ _)
          · exact Or.inr (List.mem_cons_of_mem _ hcs)

theorem tokenizePart_props (part : String) (t : String) (ht : t ∈ tokenizePart part) :
    t.data ≠ [] ∧ ∀ c ∈ t.data, c ∈ part.data := by
  rcases List.mem_map.mp ht with ⟨l, hl, rfl⟩
  obtain ⟨hne, hsub⟩ := tokenizeAux_props part.data [] false l hl
  exact ⟨hne, fun c hc => (hsub c hc).resolve_left (List.not_mem_nil c)⟩

/-- Converted components contributed by one part's segments are non-empty and
slash-free whenever the segments are. -/
theorem processSegments_conv (segs : List String)
    (h : ∀ s ∈ segs, s.data ≠ [] ∧ '/' ∉ s.data) :
    ∀ x ∈ (processSegments segs).2.1, x.data ≠ [] ∧ '/' ∉ x.data := by
  induction segs with
  | nil => intro x hx; simp [processSegments] at hx
  | cons seg rest ih =>
    intro x hx
    rw [processSegments] at hx
    by_cases hca : isCatchAllSeg seg = true
    · rw [if_pos hca] at hx
      simp at hx
    · rw [if_neg hca] at hx
      by_cases hdy : isDynamicSeg seg = true
      · rw [if_pos hdy] at hx
        rcases List.mem_cons.mp hx with rfl | hx'
        · constructor
          · rw [String.data_append]
            simp
          · intro hmem
            rw [String.data_append] at hmem
            rcases List.mem_append.mp hmem with h' | h'
            · simp at h'
            · have hsub : '/' ∈ seg.data := by
                have h1 := List.take_subset _ _ h'
                exact List.drop_subset _ _ h1
              exact (h seg (List.mem_cons_self _ _)).2 hsub
        · exact ih (fun s hs => h s (List.mem_cons_of_mem _ hs)) x hx'
      · rw [if_neg hdy] at hx
        by_cases hemp : seg = ""
        · rw [if_pos hemp] at hx
          exact ih (fun s hs => h s (List.mem_cons_of_mem _ hs)) x hx
        · rw [if_neg hemp] at hx
          rcases List.mem_cons.mp hx with rfl | hx'
          · exact h x (List.mem_cons_self _ _)
          · exact ih (fun s hs => h s (List.mem_cons_of_mem _ hs)) x hx'

/-- Converted components of the whole part list are non-empty and slash-free
whenever the parts are slash-free. -/
theorem processParts_conv (parts : List String) (h : ∀ p ∈ parts, '/' ∉ p.data) :
    ∀ x ∈ (processParts parts).2.1, x.data ≠ [] ∧ '/' ∉ x.data := by
  induction parts with
  | nil => intro x hx; simp [processParts] at hx
  | cons part rest ih =>
    have hsegs : ∀ s ∈ tokenizePart part, s.data ≠ [] ∧ '/' ∉ s.data := by
      intro s hs
      obtain ⟨hne, hsub⟩ := tokenizePart_props part s hs
      exact ⟨hne, fun hmem => h part (List.mem_cons_self _ _) (hsub '/' hmem)⟩
    intro x hx
    rw [processParts] at hx
    by_cases hflag : (processSegments (tokenizePart part)).2.2 = true
    · rw [if_pos hflag] at hx
      exact processSegments_conv _ hsegs x hx
    · rw [if_neg hflag] at hx
      rcases List.mem_append.mp hx with h' | h'
      · exact processSegments_conv _ hsegs x h'
      · exact ih (fun p hp => h p (List.mem_cons_of_mem _ hp)) x h'

/-- Directory-level parts of any relative path are slash-free: they come from
splitting on the separator. -/
theorem routeParts_no_slash (rel : String) : ∀ p ∈ routeParts rel, '/' ∉ p.data := by
  intro p hp
  rw [routeParts] at hp
  exact splitAux_no_sep '/' _ [] (List.not_mem_nil '/') p (List.mem_filter.mp hp).1

/-- Joining non-empty slash-free components with `/` yields a non-empty
string not ending in a slash. -/
theorem joinSlash_getLast :
    ∀ l : List String, l ≠ [] → (∀ x ∈ l, x.data ≠ [] ∧ '/' ∉ x.data) →
      (joinSlash l).data ≠ [] ∧ (joinSlash l).data.getLast? ≠ some '/'
  | [], h, _ => absurd rfl h
  | [x], _, hx => by
    obtain ⟨hne, hmem⟩ := hx x (List.mem_singleton.mpr rfl)
    exact ⟨hne, fun hl => hmem (mem_of_getLast?_eq_some hl)⟩
  | x :: y :: rest, _, hx => by
    obtain ⟨ihne, ihlast⟩ := joinSlash_getLast (y :: rest) (by simp)
      (fun z hz => hx z (List.mem_cons_of_mem _ hz))
    have hdata : (joinSlash (x :: y :: rest)).data =
        (x ++ "/").data ++ (joinSlash (y :: rest)).data := by
      show (x ++ "/" ++ joinSlash (y :: rest)).data = _
      rw [String.data_append]
    constructor
    · rw [hdata]
      intro hc
      exact ihne (List.append_eq_nil.mp hc).2
    · rw [hdata, List.getLast?_append_of_ne_nil _ ihne]
      exact ihlast

/-- Reading `containsDoubleSlash` through the character list of the string. -/
theorem containsDoubleSlash_data (s : String) :
    containsDoubleSlash s = hasAdjSlashes s.data := rfl

/-- A collapsed string never contains a double slash. -/
theorem containsDoubleSlash_collapse (s : String) :
    containsDoubleSlash (collapseSlashes s) = false := collapse_noAdj s.data

/-- The character list of a collapsed string. -/
theorem data_collapseSlashes (s : String) :
    (collapseSlashes s).data = collapseAux s.data := rfl

/-- Core of the double-slash analysis, over an arbitrary converted component
list `conv` and catch-all flag `flag`: the compiled path (collapse, then
conditionally append `/*`) contains `"//"` only when the flag is set and
`conv` is empty, in which case the path is exactly `"//*"`. -/
theorem compiledPath_doubleSlash (conv : List String) (flag : Bool)
    (hconv : ∀ x ∈ conv, x.data ≠ [] ∧ '/' ∉ x.data)
    (h : containsDoubleSlash (if flag then collapseSlashes ("/" ++ joinSlash conv) ++ "/*"
      else collapseSlashes ("/" ++ joinSlash conv)) = true) :
    (if flag then collapseSlashes ("/" ++ joinSlash conv) ++ "/*"
      else collapseSlashes ("/" ++ joinSlash conv)) = "//*" := by
  cases flag with
  | false =>
    rw [if_neg (by simp)] at h
    rw [containsDoubleSlash_collapse] at h
    exact absurd h Bool.false_ne_true
  | true =>
    rw [if_pos rfl] at h ⊢
    rw [containsDoubleSlash_data, String.data_append, data_collapseSlashes,
      show ("/*" : String).data = ['/', '*'] from rfl, hasAdj_append, collapse_noAdj,
      show hasAdjSlashes ['/', '*'] = false from rfl, Bool.false_or, Bool.false_or] at h
    have hlast : (collapseAux ("/" ++ joinSlash conv).data).getLast? = some '/' := by
      rw [joinAdj] at h
      cases hg : (collapseAux ("/" ++ joinSlash conv).data).getLast? with
      | none => rw [hg] at h; simp at h
      | some a =>
        rw [hg] at h
        simp only [Option.getD_some, List.head?_cons, Bool.and_eq_true,
          decide_eq_true_iff] at h
        rw [h.1]
    rw [getLast?_collapseAux] at hlast
    have hdata : ("/" ++ joinSlash conv).data = '/' :: (joinSlash conv).data := by
      rw [String.data_append]
      rfl
    rw [hdata] at hlast
    cases conv with
    | nil => decide
    | cons x xs =>
      exfalso
      obtain ⟨hne, hlast2⟩ := joinSlash_getLast (x :: xs) (by simp) hconv
      rw [show ('/' :: (joinSlash (x :: xs)).data) = ['/'] ++ (joinSlash (x :: xs)).data
        from rfl, List.getLast?_append_of_ne_nil _ hne] at hlast
      exact hlast2 hlast

/-- The `path` field of a parsed descriptor is the compiled relative path. -/
theorem parseRouteFile_path (fp rd : String) :
    (parseRouteFile fp rd).path = routePathOf (pathRelative rd fp) := by
  rw [parseRouteFile]

/-- The compiled path of a relative route-file path contains a double slash
only in the root-level catch-all case, where it is exactly `"//*"`. -/
theorem routePathOf_doubleSlash (rel : String)
    (h : containsDoubleSlash (routePathOf rel) = true) : routePathOf rel = "//*" := by
  have hconv := processParts_conv (routeParts rel) (routeParts_no_slash rel)
  rw [routePathOf] at h ⊢
  exact compiledPath_doubleSlash ((processParts (routeParts rel)).2.1)
    ((processParts (routeParts rel)).2.2) hconv h

/-- C3 counterexample: on the tree holding the single root-level catch-all
file `[...all].route.ts`, the produced descriptor's `routePath` does contain
the substring `"//"`, so the invariant as stated is false. -/
theorem no_double_slash_counterexample :
    (parseRoutes "/app" [.file "[...all].route.ts"]).map
      (fun r => containsDoubleSlash r.path) = [true] := by decide

/-- C3 amended: for every descriptor of `parseRoutes` on any directory tree,
the compiled `routePath` never contains the substring `"//"` except in the
root-level catch-all case, where the path is exactly `"//*"`. -/
theorem no_double_slash_amended (routesDir : String) (entries : List FsTree)
    (r : ParsedRoute) (hr : r ∈ parseRoutes routesDir entries)
    (h : containsDoubleSlash r.path = true) : r.path = "//*" := by
  rcases List.mem_map.mp (mem_parseRoutes.mp hr) with ⟨comps, -, heq⟩
  rw [← heq, parseRouteFile_path] at h ⊢
  exact routePathOf_doubleSlash _ h

/-- Witness for `no_double_slash_amended` at the root-level catch-all tree. -/
theorem no_double_slash_amended_witness :
    (parseRouteFile "/app/[...all].route.ts" "/app").path = "//*" :=
  no_double_slash_amended "/app" [.file "[...all].route.ts"]
    (parseRouteFile "/app/[...all].route.ts" "/app") (by decide) (by decide)

end FsRouter
